import Mathlib

/-!
Verification development for `noritsu_ezc_cleanup` (class `NoritsuEZCCleaner`
in `cleanup.py`, the operative revision; `noritsu_cleanup.py` is an earlier
draft with the rename and EXIF-write calls commented out).

The embedding models:
  * decimal formatting `f"{n:0>{w}d}"` (`padZeros`) and `int(...)` on digit
    strings (`fromDecS`);
  * `pathlib` `stem`/`suffix` decomposition of a file name (`stemSuffix`);
  * the qualifying-file filter shared by `rename_images` and
    `fix_timestamps` (`qualifies`);
  * the regex `(?P<roll_number>\d{8})(?P<frame_number>\d{4})(_(?P<frame_name>.*))?`
    applied with `re.match`, i.e. anchored at the start only (`parseStem`);
  * `rename_images`, `fix_timestamps`, `clean` (per-directory error scope),
    and `find_all_image_dirs`.

A directory listing is a `List Entry`; the lists handed to the per-directory
operations stand for the `sorted(images_dir.glob("*"))` listing of the code.
The filesystem collaborator supplies each entry's modification time already
converted by `datetime.fromtimestamp` into a broken-down `DateTime`.
The exiftool collaborator is a function from the target path to either an
execution error (`ExifToolExecuteError`) or the returned message string.
Python's `\d` also accepts non-ASCII decimal digits; filenames here are
modelled over ASCII digits (`isDigitC`), which is what the scanner emits.
-/

namespace Noritsu

/-- ASCII decimal digit test, the character class `[0-9]` (and `\d` on the
scanner's ASCII filenames). -/
def isDigitC (c : Char) : Bool := 48 ≤ c.toNat && c.toNat ≤ 57

/-- Numeric value of an ASCII digit character. -/
def charVal (c : Char) : Nat := c.toNat - 48

/-- One step of reading a decimal numeral left to right. -/
def decStep (a : Nat) (c : Char) : Nat := a * 10 + charVal c

/-- Value of a decimal digit string, as Python's `int(...)` computes it on a
string of digits (leading zeros carry no weight). -/
def fromDecList (cs : List Char) : Nat := cs.foldl decStep 0

/-- `int(s)` for a digit string `s`. -/
def fromDecS (s : String) : Nat := fromDecList s.data

/-- Decimal digits of `n`, most significant first; fuel-structured so that it
reduces in the kernel.  With fuel `> 0` exceeding the digit count this is
Python's `str(n)` for a natural number. -/
def toDecCore : Nat → Nat → List Char → List Char
  | 0, _, acc => acc
  | fuel+1, n, acc =>
    if n < 10 then Nat.digitChar n :: acc
    else toDecCore fuel (n / 10) (Nat.digitChar (n % 10) :: acc)

/-- Decimal representation of `n` (Python `str(n)` as a character list). -/
def toDec (n : Nat) : List Char := toDecCore (n + 1) n []

/-- Python's `f"{n:0>{w}d}"`: the decimal numeral of `n`, left-padded with
`'0'` up to width `w`, never truncated. -/
def padZeros (n w : Nat) : String :=
  String.mk (List.replicate (w - (toDec n).length) '0' ++ toDec n)

/-- A wall-clock timestamp as `datetime.fromtimestamp` returns it, already
broken down into calendar fields. -/
structure DateTime where
  year : Nat
  month : Nat
  day : Nat
  hour : Nat
  minute : Nat
  second : Nat
deriving DecidableEq, Repr, Inhabited

/-- `EXIF_DATETIME_STR_FORMAT = "%Y:%m:%d %H:%M:%S"` applied by `strftime`. -/
def strftimeExif (d : DateTime) : String :=
  padZeros d.year 4 ++ ":" ++ padZeros d.month 2 ++ ":" ++ padZeros d.day 2 ++ " " ++
    padZeros d.hour 2 ++ ":" ++ padZeros d.minute 2 ++ ":" ++ padZeros d.second 2

/-- Index of the last `'.'` in a character list, if any. -/
def rfindDot : List Char → Option Nat
  | [] => none
  | c :: cs =>
    match rfindDot cs with
    | some i => some (i + 1)
    | none => if c = '.' then some 0 else none

/-- `pathlib` decomposition of a file name into `(stem, suffix)`: the suffix
starts at the last dot provided that dot is neither the first nor the last
character; otherwise the suffix is empty and the stem is the whole name. -/
def stemSuffix (name : String) : String × String :=
  let cs := name.data
  match rfindDot cs with
  | some i =>
    if 0 < i ∧ i < cs.length - 1 then (String.mk (cs.take i), String.mk (cs.drop i))
    else (name, "")
  | none => (name, "")

/-- `image_path.stem`. -/
def stemOf (name : String) : String := (stemSuffix name).1

/-- `image_path.suffix` (the extension including the dot). -/
def suffixOf (name : String) : String := (stemSuffix name).2

/-- Python `str.lower`, on the ASCII extensions this code compares. -/
def lowerStr (s : String) : String := String.mk (s.data.map Char.toLower)

/-- `str(filename).startswith(".")`. -/
def startsDot (s : String) : Bool :=
  match s.data with
  | '.' :: _ => true
  | _ => false

/-- One entry of a directory listing: its name, whether it is a regular file,
and its filesystem modification time. -/
structure Entry where
  name : String
  isFile : Bool
  mtime : DateTime
deriving DecidableEq, Repr

/-- The qualifying-file filter both `rename_images` and `fix_timestamps`
apply before doing anything with an entry: extension `.jpg`/`.tif` after
lowercasing, stem not starting with a dot, and a regular file. -/
def qualifies (e : Entry) : Bool :=
  (lowerStr (suffixOf e.name) = ".jpg" || lowerStr (suffixOf e.name) = ".tif") &&
    !startsDot (stemOf e.name) && e.isFile

/-- Result of `image_name_matcher.match(filename)`: the named capture
groups.  `frame_name` is `none` when the optional `(_(?P<frame_name>.*))?`
group did not participate. -/
structure ParsedName where
  roll_number : String
  frame_number : String
  frame_name : Option String
deriving DecidableEq, Repr

/-- `re.match` of `IMAGE_NAME_PATTERN` against a stem: eight digits, four
digits, then optionally an underscore followed by the rest of the stem.
`re.match` anchors at the start only, so trailing characters that are not an
underscore group are simply ignored. -/
def parseStem (stem : String) : Option ParsedName :=
  let cs := stem.data
  let r := cs.take 8
  let f := (cs.drop 8).take 4
  if r.length = 8 && r.all isDigitC && f.length = 4 && f.all isDigitC then
    some ⟨String.mk r, String.mk f,
      match cs.drop 12 with
      | '_' :: t => some (String.mk t)
      | _ => none⟩
  else none

/-- The recognized configuration of `NoritsuEZCCleaner`: `roll_padding` and
`use_frame_names` (the `search_path` is the tree the locator runs on and the
exiftool client is passed separately). -/
structure Config where
  roll_padding : Nat
  use_frame_names : Bool
deriving DecidableEq, Repr

/-- The per-directory failures raised as `ValueError` by `rename_images` and
`fix_timestamps`, under the spec's taxonomy names. -/
inductive DirError where
  | formatError (path : String)
  | batchConsistencyError (path : String)
  | missingFrameNameError (path : String)
deriving DecidableEq, Repr

/-- The frame identifier the code puts after `F`: in frame-name mode the
`frame_name` group, raising (`none`) when that group is `None` or empty
(`if not frame_name`); in sequential mode `f"{int(frame_number):0>2d}"`,
which never fails. -/
def frameIdent (cfg : Config) (p : ParsedName) : Option String :=
  if cfg.use_frame_names then
    match p.frame_name with
    | none => none
    | some s => if s = "" then none else some s
  else some (padZeros (fromDecS p.frame_number) 2)

/-- `f"R{formatted_roll_number}F{frame_name}"` plus the original extension:
the roll string is converted with `int(...)` and re-padded to
`roll_padding`. -/
def canonicalName (cfg : Config) (roll : String) (ident : String) (ext : String) : String :=
  "R" ++ padZeros (fromDecS roll) cfg.roll_padding ++ "F" ++ ident ++ ext

/-- The loop body of `rename_images` over the (already sorted) listing,
carrying the established `roll_number` (`None` before the first parsed
file).  Returns the renames committed, in order, and the `ValueError`
aborting the directory if one is raised; renames committed before the raise
stay committed. -/
def renameGo (cfg : Config) (rollOpt : Option String) :
    List Entry → List (String × String) × Option DirError
  | [] => ([], none)
  | e :: rest =>
    if qualifies e then
      match parseStem (stemOf e.name) with
      | none => ([], some (.formatError e.name))
      | some p =>
        let roll := rollOpt.getD p.roll_number
        if rollOpt.isSome ∧ roll ≠ p.roll_number then
          ([], some (.batchConsistencyError e.name))
        else
          match frameIdent cfg p with
          | none => ([], some (.missingFrameNameError e.name))
          | some ident =>
            let out := renameGo cfg (some roll) rest
            ((e.name, canonicalName cfg roll ident (suffixOf e.name)) :: out.1, out.2)
    else renameGo cfg rollOpt rest

/-- `rename_images` on one directory listing. -/
def rename_images (cfg : Config) (entries : List Entry) :
    List (String × String) × Option DirError :=
  renameGo cfg none entries

/-- `EXIFTOOL_SUCCESSFUL_WRITE_MESSAGE`. -/
def EXIFTOOL_SUCCESSFUL_WRITE_MESSAGE : String := "1 image files updated"

/-- The four tags `fix_timestamps` writes for one file. -/
structure TagWrite where
  path : String
  dateTimeOriginal : String
  dateTimeDigitized : String
  subSecTimeOriginal : String
  subSecTimeDigitized : String
deriving DecidableEq, Repr

/-- How one `set_tags` call ended: clean success, an
`ExifToolExecuteError` caught and reported, or an acknowledgment other than
the expected success message, reported as a failure. -/
inductive WriteResult where
  | ok
  | execError (msg : String)
  | badAck (response : String)
deriving DecidableEq, Repr

/-- The exiftool collaborator: for a target path, either an execution error
or the message string `set_tags` returns. -/
def Writer : Type := String → Except String String

/-- The `try/except/else` around `set_tags`: catch an execution error,
otherwise strip the response and compare it with the expected success
message. -/
def classifyWrite (w : Except String String) : WriteResult :=
  match w with
  | .error msg => .execError msg
  | .ok r =>
    if r.trim = EXIFTOOL_SUCCESSFUL_WRITE_MESSAGE then .ok
    else .badAck r.trim

/-- The tag assignment built for the file counted as `image_num` (1-based),
from the directory's base time `m`: both datetimes are `m` formatted with
`EXIF_DATETIME_STR_FORMAT`, both subsecond fields are
`f"{image_num - 1:0>3d}"`. -/
def mkTags (path : String) (m : DateTime) (imageNum : Nat) : TagWrite :=
  { path := path
    dateTimeOriginal := strftimeExif m
    dateTimeDigitized := strftimeExif m
    subSecTimeOriginal := padZeros (imageNum - 1) 3
    subSecTimeDigitized := padZeros (imageNum - 1) 3 }

/-- The loop body of `fix_timestamps` over the (already sorted) listing:
skip non-qualifying entries, raise on a stem the pattern rejects, bump the
1-based counter, latch `first_image_mtime` on the first counted file, and
attempt one `set_tags` call per file, never aborting on a writer failure.
Returns the attempted writes with their outcomes, and the `ValueError`
aborting the directory if one is raised. -/
def fixGo (writer : Writer) :
    List Entry → Option DateTime → Nat → List (TagWrite × WriteResult) × Option DirError
  | [], _, _ => ([], none)
  | e :: rest, firstM, imageNum =>
    if qualifies e then
      match parseStem (stemOf e.name) with
      | none => ([], some (.formatError e.name))
      | some _ =>
        let m := firstM.getD e.mtime
        let t := mkTags e.name m (imageNum + 1)
        let out := fixGo writer rest (some m) (imageNum + 1)
        ((t, classifyWrite (writer e.name)) :: out.1, out.2)
    else fixGo writer rest firstM imageNum

/-- `fix_timestamps` on one directory listing. -/
def fix_timestamps (writer : Writer) (entries : List Entry) :
    List (TagWrite × WriteResult) × Option DirError :=
  fixGo writer entries none 0

/-- What one iteration of `clean`'s loop leaves behind for one directory:
the tag writes attempted, the renames committed, and the `ValueError` that
was caught (if any).  `clean` calls `fix_timestamps` before
`rename_images`, so a raise inside `fix_timestamps` means `rename_images`
never ran for that directory. -/
structure DirResult where
  tagOutcomes : List (TagWrite × WriteResult)
  renames : List (String × String)
  error : Option DirError
deriving DecidableEq, Repr

/-- One directory's pass inside `clean`: `fix_timestamps` then
`rename_images`, stopping at the first `ValueError`.  The stray-file
deletions (`delete_thm_files`, `delete_infohd_file`) only remove `*.thm`
files and `Info_HD.txt`, which never pass the `.jpg`/`.tif` filter; the
spec declares stray-file deletion out of scope and it is elided here. -/
def processDir (cfg : Config) (writer : Writer) (entries : List Entry) : DirResult :=
  let fr := fix_timestamps writer entries
  match fr.2 with
  | some err => ⟨fr.1, [], some err⟩
  | none =>
    let rr := rename_images cfg entries
    ⟨fr.1, rr.1, rr.2⟩

/-- `clean`: every located directory is processed; a `ValueError` is caught,
reported, and the loop moves on to the next directory. -/
def clean (cfg : Config) (writer : Writer) (dirs : List (List Entry)) : List DirResult :=
  dirs.map (processDir cfg writer)

/-- A filesystem tree for the locator: a regular file or a directory with
children. -/
inductive FSNode where
  | file (name : String)
  | dir (name : String) (children : List FSNode)

/-- Name of a node. -/
def FSNode.nameOf : FSNode → String
  | .file n => n
  | .dir n _ => n

/-- `is_dir()`. -/
def FSNode.isDir : FSNode → Bool
  | .file _ => false
  | .dir _ _ => true

/-- Full-name match of the glob pattern `[0-9]` repeated eight times:
exactly eight ASCII digits. -/
def isEightDigits (name : String) : Bool :=
  name.data.length = 8 && name.data.all isDigitC

/-- `re.match(IMAGE_DIR_GLOB_PATTERN, name)`: `re.match` anchors only at the
start, so this asks for eight ASCII digits as a prefix of the name. -/
def digitPrefix8 (name : String) : Bool :=
  (name.data.take 8).length = 8 && (name.data.take 8).all isDigitC

/-- `search_path.glob("**/" + IMAGE_DIR_GLOB_PATTERN)`: every proper
descendant (file or directory — glob does not check the entry kind) whose
name is exactly eight digits, as a path of names relative to the root. -/
def globEights : List FSNode → List (List String)
  | [] => []
  | .file n :: rest =>
    (if isEightDigits n then [[n]] else []) ++ globEights rest
  | .dir n cs :: rest =>
    (if isEightDigits n then [[n]] else []) ++
      (globEights cs).map (fun p => n :: p) ++ globEights rest

/-- Lexicographic comparison of the path strings `sorted` compares (the
string form of a `Path`). -/
def strLeB (a b : String) : Bool := charsLe a.data b.data
where
  charsLe : List Char → List Char → Bool
    | [], _ => true
    | _ :: _, [] => false
    | x :: xs, y :: ys =>
      if x < y then true else if y < x then false else charsLe xs ys

/-- Path order used by `sorted` on the glob results: compare the joined
path strings (all results share the root prefix). -/
def pathLeB (p q : List String) : Bool :=
  strLeB (String.intercalate "/" p) (String.intercalate "/" q)

/-- Stable insertion into a sorted list. -/
def insertSorted (x : List String) : List (List String) → List (List String)
  | [] => [x]
  | y :: ys => if pathLeB x y then x :: y :: ys else y :: insertSorted x ys

/-- `sorted(...)` on glob results. -/
def sortPaths (ps : List (List String)) : List (List String) :=
  ps.foldr insertSorted []

/-- `find_all_image_dirs`: the root itself first, if it is a directory whose
name starts with eight digits (`re.match` is a prefix match), followed by
the sorted glob results.  Paths are name lists relative to the root; `[]`
denotes the root.  An empty result raises nothing. -/
def find_all_image_dirs (root : FSNode) : List (List String) :=
  (if root.isDir && digitPrefix8 root.nameOf then [[]] else []) ++
    sortPaths (match root with
      | .file _ => []
      | .dir _ cs => globEights cs)

/-- Node reached from `root` by following a path of names, using the first
child carrying each name. -/
def nodeAt : FSNode → List String → Option FSNode
  | n, [] => some n
  | .file _, _ :: _ => none
  | .dir _ cs, nm :: rest =>
    match cs.find? (fun c => c.nameOf = nm) with
    | some c => nodeAt c rest
    | none => none

/-- Every qualifying file's stem matches the parse pattern (the hypothesis
under which a directory passes both loops without a `ValueError` from the
matcher). -/
def allQualParseB (entries : List Entry) : Bool :=
  entries.all fun e => !qualifies e || (parseStem (stemOf e.name)).isSome

/-- The parsed roll numbers of the qualifying files, in listing order. -/
def qualRolls (entries : List Entry) : List String :=
  entries.filterMap fun e =>
    if qualifies e then (parseStem (stemOf e.name)).map (fun p => p.roll_number)
    else none

/-- The `if not frame_name` test passes: the `frame_name` group participated
and is nonempty. -/
def frameOkB (p : ParsedName) : Bool := p.frame_name.getD "" != ""

/-- In frame-name mode, every qualifying parsed file carries a usable frame
name (vacuous in sequential mode). -/
def framesOkB (cfg : Config) (entries : List Entry) : Bool :=
  !cfg.use_frame_names || entries.all fun e =>
    !qualifies e ||
      match parseStem (stemOf e.name) with
      | some p => frameOkB p
      | none => true

/-- A list of roll strings that all agree with the first one. -/
def rollsAllEq : List String → Bool
  | [] => true
  | r :: rs => rs.all (· == r)

/-- All qualifying files agree on the roll number. -/
def rollsConsistentB (entries : List Entry) : Bool :=
  rollsAllEq (qualRolls entries)

/-- The entry's stem begins with `'R'`, as every canonical output name
does. -/
def stemStartsR (e : Entry) : Bool :=
  match (stemOf e.name).data with
  | c :: _ => c = 'R'
  | [] => false

/-- `fixGo` specialised to a listing of qualifying, parseable files: what
the Synthesizer does once the filter and the matcher are out of the way. -/
def fixQualOuts (writer : Writer) :
    List Entry → Option DateTime → Nat → List (TagWrite × WriteResult)
  | [], _, _ => []
  | e :: rest, firstM, imageNum =>
    let m := firstM.getD e.mtime
    (mkTags e.name m (imageNum + 1), classifyWrite (writer e.name)) ::
      fixQualOuts writer rest (some m) (imageNum + 1)

/-- Sample modification times for concrete runs. -/
def sampleTime : DateTime := ⟨2021, 12, 26, 9, 5, 3⟩

/-- A later, different modification time. -/
def sampleTime2 : DateTime := ⟨2022, 1, 1, 0, 0, 0⟩

/-- A writer that always acknowledges success. -/
def okWriter : Writer := fun _ => .ok "1 image files updated"

/-- A writer that raises on the first sample file, returns a wrong
acknowledgment on the second, and succeeds elsewhere. -/
def mixedWriter : Writer := fun path =>
  if path = "000074660001_00.jpg" then .error "boom"
  else if path = "000074660002_0.jpg" then .ok "0 image files updated"
  else .ok "1 image files updated"

/-! ### Arithmetic facts about the decimal formatter -/

theorem toDecCore_fuelIrrel :
    ∀ (f g n : Nat) (acc : List Char), n < f → n < g →
      toDecCore f n acc = toDecCore g n acc := by
  intro f
  induction f with
  | zero => intro g n acc h; exact absurd h (Nat.not_lt_zero n)
  | succ f ih =>
    intro g n acc hf hg
    cases g with
    | zero => exact absurd hg (Nat.not_lt_zero n)
    | succ g =>
      simp only [toDecCore]
      by_cases h10 : n < 10
      · simp [h10]
      · have hdiv : n / 10 < n := Nat.div_lt_self (by omega) (by omega)
        simp only [h10, if_false]
        exact ih g (n / 10) _ (by omega) (by omega)

theorem toDecCore_append :
    ∀ (f n : Nat) (acc : List Char), n < f →
      toDecCore f n acc = toDecCore f n [] ++ acc := by
  intro f
  induction f with
  | zero => intro n acc h; exact absurd h (Nat.not_lt_zero n)
  | succ f ih =>
    intro n acc h
    simp only [toDecCore]
    by_cases h10 : n < 10
    · simp [h10]
    · have hdiv : n / 10 < n := Nat.div_lt_self (by omega) (by omega)
      simp only [h10, if_false]
      rw [ih (n / 10) _ (by omega), ih (n / 10) [Nat.digitChar (n % 10)] (by omega),
        List.append_assoc]
      simp

/-- One-step unfolding of `toDec` that hides the fuel. -/
theorem toDec_eq (n : Nat) :
    toDec n = if n < 10 then [Nat.digitChar n]
      else toDec (n / 10) ++ [Nat.digitChar (n % 10)] := by
  unfold toDec
  simp only [toDecCore]
  by_cases h10 : n < 10
  · simp [h10]
  · have hdiv : n / 10 < n := Nat.div_lt_self (by omega) (by omega)
    simp only [h10, if_false]
    rw [toDecCore_append n (n / 10) _ (by omega),
      toDecCore_fuelIrrel n (n / 10 + 1) (n / 10) [] (by omega) (by omega)]
    congr 1

theorem toDec_length_pos (n : Nat) : 1 ≤ (toDec n).length := by
  rw [toDec_eq]
  by_cases h : n < 10 <;> simp [h]

theorem charVal_digitChar (d : Nat) (h : d < 10) : charVal (Nat.digitChar d) = d := by
  interval_cases d <;> decide

theorem foldl_decStep_toDec (n : Nat) :
    ∀ a : Nat, List.foldl decStep a (toDec n) = a * 10 ^ (toDec n).length + n := by
  induction n using Nat.strong_induction_on with
  | _ n ih =>
    intro a
    rw [toDec_eq]
    by_cases h10 : n < 10
    · simp [h10, decStep, charVal_digitChar n h10]
    · have hdiv : n / 10 < n := Nat.div_lt_self (by omega) (by omega)
      simp only [h10, if_false]
      rw [List.foldl_append, ih (n / 10) hdiv a]
      have hdm : n / 10 * 10 + n % 10 = n := by omega
      simp only [List.foldl, decStep, charVal_digitChar (n % 10) (by omega),
        List.length_append, List.length_singleton]
      calc (a * 10 ^ (toDec (n / 10)).length + n / 10) * 10 + n % 10
          = a * (10 ^ (toDec (n / 10)).length * 10) + (n / 10 * 10 + n % 10) := by ring
        _ = a * 10 ^ ((toDec (n / 10)).length + 1) + n := by rw [hdm, pow_succ]

theorem fromDecList_toDec (n : Nat) : fromDecList (toDec n) = n := by
  unfold fromDecList
  rw [foldl_decStep_toDec]
  simp

theorem foldl_decStep_replicate_zero :
    ∀ k : Nat, List.foldl decStep 0 (List.replicate k '0') = 0 := by
  intro k
  induction k with
  | zero => rfl
  | succ k ih => simpa [List.replicate_succ, decStep, charVal] using ih

/-- The numeric value survives zero-padding: the formatter never truncates. -/
theorem fromDecS_padZeros (n w : Nat) : fromDecS (padZeros n w) = n := by
  show List.foldl decStep 0 (List.replicate (w - (toDec n).length) '0' ++ toDec n) = n
  rw [List.foldl_append, foldl_decStep_replicate_zero]
  exact fromDecList_toDec n

/-- Width of the padded field: the requested width, or the full numeral when
it is longer. -/
theorem length_padZeros (n w : Nat) :
    (padZeros n w).length = max w (toDec n).length := by
  show (List.replicate (w - (toDec n).length) '0' ++ toDec n).length = _
  have := toDec_length_pos n
  simp only [List.length_append, List.length_replicate]
  omega

/-- When the numeral already fills the width, no padding is added. -/
theorem padZeros_of_le (n w : Nat) (h : w ≤ (toDec n).length) :
    padZeros n w = String.mk (toDec n) := by
  unfold padZeros
  rw [Nat.sub_eq_zero_of_le h]
  rfl

theorem toDec_length_le :
    ∀ (n k : Nat), 1 ≤ k → n < 10 ^ k → (toDec n).length ≤ k := by
  intro n
  induction n using Nat.strong_induction_on with
  | _ n ih =>
    intro k hk hlt
    rw [toDec_eq]
    by_cases h10 : n < 10
    · simpa [h10] using hk
    · have hdiv : n / 10 < n := Nat.div_lt_self (by omega) (by omega)
      obtain ⟨k', rfl⟩ : ∃ k', k = k' + 1 := ⟨k - 1, by omega⟩
      have hk' : 1 ≤ k' := by
        by_contra hcon
        have : k' = 0 := by omega
        subst this
        simp [pow_one] at hlt
        omega
      have hlt' : n / 10 < 10 ^ k' := by
        rw [Nat.div_lt_iff_lt_mul (by omega : 0 < 10)]
        calc n < 10 ^ (k' + 1) := hlt
          _ = 10 ^ k' * 10 := pow_succ 10 k'
      have := ih (n / 10) hdiv k' hk' hlt'
      simp only [h10, if_false, List.length_append, List.length_singleton]
      omega

theorem toDec_length_ge :
    ∀ (n k : Nat), 10 ^ k ≤ n → k + 1 ≤ (toDec n).length := by
  intro n
  induction n using Nat.strong_induction_on with
  | _ n ih =>
    intro k hge
    rw [toDec_eq]
    by_cases h10 : n < 10
    · have hk : k = 0 := by
        by_contra hcon
        have h1 : 1 ≤ k := by omega
        have : 10 ^ 1 ≤ 10 ^ k := Nat.pow_le_pow_right (by omega) h1
        simp [pow_one] at this
        omega
      subst hk
      simp [h10]
    · have hdiv : n / 10 < n := Nat.div_lt_self (by omega) (by omega)
      simp only [h10, if_false, List.length_append, List.length_singleton]
      cases k with
      | zero => have := toDec_length_pos (n / 10); omega
      | succ k' =>
        have hge' : 10 ^ k' ≤ n / 10 := by
          rw [Nat.le_div_iff_mul_le (by omega : 0 < 10)]
          calc 10 ^ k' * 10 = 10 ^ (k' + 1) := (pow_succ 10 k').symm
            _ ≤ n := hge
        have := ih (n / 10) hdiv k' hge'
        omega

theorem foldl_decStep_lt :
    ∀ (cs : List Char) (a : Nat), cs.all isDigitC = true →
      List.foldl decStep a cs < (a + 1) * 10 ^ cs.length := by
  intro cs
  induction cs with
  | nil => intro a _; simp
  | cons c cs ih =>
    intro a hall
    rw [List.all_cons, Bool.and_eq_true] at hall
    have hc : 48 ≤ c.toNat ∧ c.toNat ≤ 57 := by
      have := hall.1
      simp only [isDigitC, Bool.and_eq_true, decide_eq_true_eq] at this
      exact this
    have hcv : charVal c ≤ 9 := by unfold charVal; omega
    calc List.foldl decStep a (c :: cs)
        = List.foldl decStep (decStep a c) cs := rfl
      _ < (decStep a c + 1) * 10 ^ cs.length := ih _ hall.2
      _ ≤ ((a + 1) * 10) * 10 ^ cs.length := by
          apply Nat.mul_le_mul_right
          unfold decStep
          omega
      _ = (a + 1) * 10 ^ (cs.length + 1) := by rw [pow_succ]; ring

/-- The value of a digit string is bounded by the width of the string. -/
theorem fromDecList_lt (cs : List Char) (h : cs.all isDigitC = true) :
    fromDecList cs < 10 ^ cs.length := by
  have := foldl_decStep_lt cs 0 h
  simpa using this

/-! ### Behaviour of `fix_timestamps` -/

theorem fixGo_filter (writer : Writer) :
    ∀ (entries : List Entry) (m : Option DateTime) (k : Nat),
      fixGo writer entries m k = fixGo writer (entries.filter qualifies) m k := by
  intro entries
  induction entries with
  | nil => intro m k; rfl
  | cons e rest ih =>
    intro m k
    by_cases hq : qualifies e = true
    · rw [List.filter_cons_of_pos hq]
      simp only [fixGo, hq, if_true]
      cases hp : parseStem (stemOf e.name) with
      | none => rfl
      | some p => simp only [ih]
    · rw [List.filter_cons_of_neg (by simpa using hq)]
      simp only [fixGo, hq, if_false]
      exact ih m k

theorem fixGo_error_of_bad (writer : Writer) :
    ∀ (entries : List Entry) (m : Option DateTime) (k : Nat),
      (∃ e ∈ entries, qualifies e = true ∧ parseStem (stemOf e.name) = none) →
      ∃ q, (fixGo writer entries m k).2 = some (DirError.formatError q) := by
  intro entries
  induction entries with
  | nil => intro m k h; obtain ⟨e, he, -⟩ := h; exact absurd he (List.not_mem_nil e)
  | cons e rest ih =>
    intro m k h
    obtain ⟨e', he', hq', hp'⟩ := h
    by_cases hq : qualifies e = true
    · cases hpe : parseStem (stemOf e.name) with
      | none => exact ⟨e.name, by simp [fixGo, hq, hpe]⟩
      | some p =>
        have hne : e' ≠ e := by
          intro hcon
          rw [hcon, hpe] at hp'
          exact Option.noConfusion hp'
        have hmem : e' ∈ rest := by
          rcases List.mem_cons.mp he' with h1 | h1
          · exact absurd h1 hne
          · exact h1
        obtain ⟨q, hres⟩ := ih (some (m.getD e.mtime)) (k + 1) ⟨e', hmem, hq', hp'⟩
        exact ⟨q, by simp [fixGo, hq, hpe, hres]⟩
    · have hne : e' ≠ e := by
        intro hcon
        rw [hcon] at hq'
        exact hq hq'
      have hmem : e' ∈ rest := by
        rcases List.mem_cons.mp he' with h1 | h1
        · exact absurd h1 hne
        · exact h1
      obtain ⟨q, hres⟩ := ih m k ⟨e', hmem, hq', hp'⟩
      exact ⟨q, by simp [fixGo, hq, hres]⟩

theorem fixGo_eq_qual (writer : Writer) :
    ∀ (entries : List Entry) (m : Option DateTime) (k : Nat),
      allQualParseB entries = true →
      fixGo writer entries m k = (fixQualOuts writer (entries.filter qualifies) m k, none) := by
  intro entries
  induction entries with
  | nil => intro m k _; rfl
  | cons e rest ih =>
    intro m k hall
    rw [allQualParseB, List.all_cons, Bool.and_eq_true] at hall
    obtain ⟨hhead, htail⟩ := hall
    by_cases hq : qualifies e = true
    · have hsome : (parseStem (stemOf e.name)).isSome = true := by
        rw [hq] at hhead
        simpa using hhead
      obtain ⟨p, hp⟩ := Option.isSome_iff_exists.mp hsome
      rw [List.filter_cons_of_pos hq]
      simp only [fixGo, fixQualOuts, hq, if_true, hp]
      rw [ih (some (m.getD e.mtime)) (k + 1) htail]
    · rw [List.filter_cons_of_neg (by simpa using hq)]
      simp only [fixGo, hq, if_false]
      exact ih m k htail

theorem fixQualOuts_enum (writer : Writer) :
    ∀ (qs : List Entry) (m0 : DateTime) (k : Nat),
      fixQualOuts writer qs (some m0) k =
        (List.enumFrom k qs).map fun pe =>
          (mkTags pe.2.name m0 (pe.1 + 1), classifyWrite (writer pe.2.name)) := by
  intro qs
  induction qs with
  | nil => intro m0 k; rfl
  | cons e rest ih =>
    intro m0 k
    simp only [fixQualOuts, List.enumFrom, List.map_cons, Option.getD_some]
    rw [ih m0 (k + 1)]

/-- Closed form of a successful `fix_timestamps` pass: one write per
qualifying file, in order, all carrying the first qualifying file's
modification time and the running index. -/
theorem fix_timestamps_enum (writer : Writer) (entries : List Entry)
    (e0 : Entry) (qrest : List Entry)
    (hfilter : entries.filter qualifies = e0 :: qrest)
    (hparse : allQualParseB entries = true) :
    fix_timestamps writer entries =
      ((List.enumFrom 0 (e0 :: qrest)).map fun pe =>
        (mkTags pe.2.name e0.mtime (pe.1 + 1), classifyWrite (writer pe.2.name)), none) := by
  rw [fix_timestamps, fixGo_eq_qual writer entries none 0 hparse, hfilter]
  simp only [fixQualOuts, List.enumFrom, List.map_cons, Option.getD_none]
  rw [fixQualOuts_enum writer qrest e0.mtime 1]

theorem fixQualOuts_map_path (writer : Writer) :
    ∀ (qs : List Entry) (m : Option DateTime) (k : Nat),
      (fixQualOuts writer qs m k).map (fun o => o.1.path) = qs.map (·.name) := by
  intro qs
  induction qs with
  | nil => intro m k; rfl
  | cons e rest ih =>
    intro m k
    simp only [fixQualOuts, List.map_cons, mkTags]
    rw [ih]

theorem fixQualOuts_map_res (writer : Writer) :
    ∀ (qs : List Entry) (m : Option DateTime) (k : Nat),
      (fixQualOuts writer qs m k).map (fun o => o.2) =
        qs.map (fun e => classifyWrite (writer e.name)) := by
  intro qs
  induction qs with
  | nil => intro m k; rfl
  | cons e rest ih =>
    intro m k
    simp only [fixQualOuts, List.map_cons]
    rw [ih]

theorem fixGo_path_take (writer : Writer) :
    ∀ (entries : List Entry) (m : Option DateTime) (k : Nat), ∃ j,
      (fixGo writer entries m k).1.map (fun o => o.1.path) =
        ((entries.filter qualifies).map (·.name)).take j := by
  intro entries
  induction entries with
  | nil => exact fun m k => ⟨0, rfl⟩
  | cons e rest ih =>
    intro m k
    by_cases hq : qualifies e = true
    · cases hp : parseStem (stemOf e.name) with
      | none => exact ⟨0, by simp [fixGo, hq, hp]⟩
      | some p =>
        obtain ⟨j, hj⟩ := ih (some (m.getD e.mtime)) (k + 1)
        refine ⟨j + 1, ?_⟩
        rw [List.filter_cons_of_pos hq]
        simp only [fixGo, hq, if_true, hp, List.map_cons, List.take_succ_cons, mkTags]
        rw [hj]
    · rw [List.filter_cons_of_neg (by simpa using hq)]
      simp only [fixGo, hq, if_false]
      exact ih m k

/-! ### Behaviour of `rename_images` -/

theorem qualRolls_cons_pos (e : Entry) (rest : List Entry) (p : ParsedName)
    (hq : qualifies e = true) (hp : parseStem (stemOf e.name) = some p) :
    qualRolls (e :: rest) = p.roll_number :: qualRolls rest := by
  simp [qualRolls, List.filterMap_cons, hq, hp]

theorem qualRolls_cons_neg (e : Entry) (rest : List Entry)
    (hq : ¬qualifies e = true) :
    qualRolls (e :: rest) = qualRolls rest := by
  simp [qualRolls, List.filterMap_cons, hq]

theorem framesOkB_tail (cfg : Config) (e : Entry) (rest : List Entry)
    (h : framesOkB cfg (e :: rest) = true) : framesOkB cfg rest = true := by
  rw [framesOkB, Bool.or_eq_true] at h ⊢
  rcases h with h | h
  · exact Or.inl h
  · rw [List.all_cons, Bool.and_eq_true] at h
    exact Or.inr h.2

theorem framesOkB_head (cfg : Config) (e : Entry) (rest : List Entry)
    (hframes : framesOkB cfg (e :: rest) = true) (huse : cfg.use_frame_names = true)
    (hq : qualifies e = true) (p : ParsedName)
    (hp : parseStem (stemOf e.name) = some p) : frameOkB p = true := by
  rw [framesOkB, huse, Bool.or_eq_true] at hframes
  rcases hframes with h | h
  · simp at h
  · rw [List.all_cons, Bool.and_eq_true] at h
    have := h.1
    rw [hq, hp] at this
    simpa using this

theorem frameIdent_seq (cfg : Config) (p : ParsedName)
    (h : cfg.use_frame_names = false) :
    frameIdent cfg p = some (padZeros (fromDecS p.frame_number) 2) := by
  simp [frameIdent, h]

theorem frameIdent_of_frameOk (cfg : Config) (p : ParsedName)
    (huse : cfg.use_frame_names = true) (hok : frameOkB p = true) :
    ∃ s, frameIdent cfg p = some s := by
  rw [frameIdent, huse, if_pos rfl]
  cases hfn : p.frame_name with
  | none => rw [frameOkB, hfn] at hok; simp at hok
  | some s =>
    have hs : ¬s = "" := by
      rw [frameOkB, hfn] at hok
      simpa using hok
    exact ⟨s, by simp [hs]⟩

theorem frameIdent_none_of_bad (cfg : Config) (p : ParsedName)
    (huse : cfg.use_frame_names = true) (hok : frameOkB p = false) :
    frameIdent cfg p = none := by
  rw [frameIdent, huse, if_pos rfl]
  cases hfn : p.frame_name with
  | none => rfl
  | some s =>
    have hs : s = "" := by
      rw [frameOkB, hfn] at hok
      simpa using hok
    simp [hs]

theorem frameIdent_some_of_framesOk (cfg : Config) (e : Entry) (rest : List Entry)
    (hframes : framesOkB cfg (e :: rest) = true) (hq : qualifies e = true)
    (p : ParsedName) (hp : parseStem (stemOf e.name) = some p) :
    ∃ s, frameIdent cfg p = some s := by
  cases huse : cfg.use_frame_names with
  | false => exact ⟨_, frameIdent_seq cfg p huse⟩
  | true => exact frameIdent_of_frameOk cfg p huse (framesOkB_head cfg e rest hframes huse hq p hp)

theorem renameGo_filter (cfg : Config) :
    ∀ (entries : List Entry) (rollOpt : Option String),
      renameGo cfg rollOpt entries = renameGo cfg rollOpt (entries.filter qualifies) := by
  intro entries
  induction entries with
  | nil => intro rollOpt; rfl
  | cons e rest ih =>
    intro rollOpt
    by_cases hq : qualifies e = true
    · rw [List.filter_cons_of_pos hq]
      simp only [renameGo, hq, if_true]
      cases hp : parseStem (stemOf e.name) with
      | none => rfl
      | some p => simp only [ih]
    · rw [List.filter_cons_of_neg (by simpa using hq)]
      simp only [renameGo, hq, if_false]
      exact ih rollOpt

theorem renameGo_src_take (cfg : Config) :
    ∀ (entries : List Entry) (rollOpt : Option String), ∃ j,
      (renameGo cfg rollOpt entries).1.map Prod.fst =
        ((entries.filter qualifies).map (·.name)).take j := by
  intro entries
  induction entries with
  | nil => exact fun rollOpt => ⟨0, rfl⟩
  | cons e rest ih =>
    intro rollOpt
    by_cases hq : qualifies e = true
    · cases hp : parseStem (stemOf e.name) with
      | none => exact ⟨0, by simp [renameGo, hq, hp]⟩
      | some p =>
        by_cases hroll : rollOpt.isSome ∧ rollOpt.getD p.roll_number ≠ p.roll_number
        · exact ⟨0, by simp [renameGo, hq, hp, hroll]⟩
        · cases hfi : frameIdent cfg p with
          | none => exact ⟨0, by simp [renameGo, hq, hp, hroll, hfi]⟩
          | some s =>
            obtain ⟨j, hj⟩ := ih (some (rollOpt.getD p.roll_number))
            refine ⟨j + 1, ?_⟩
            rw [List.filter_cons_of_pos hq]
            simp only [renameGo, hq, if_true, hp, hroll, if_false, hfi,
              List.map_cons, List.take_succ_cons]
            rw [hj]
    · rw [List.filter_cons_of_neg (by simpa using hq)]
      simp only [renameGo, hq, if_false]
      exact ih rollOpt

theorem renameGo_cons_skip (cfg : Config) (rollOpt : Option String) (e : Entry)
    (rest : List Entry) (hq : ¬qualifies e = true) :
    renameGo cfg rollOpt (e :: rest) = renameGo cfg rollOpt rest := by
  simp [renameGo, hq]

theorem renameGo_cons_noparse (cfg : Config) (rollOpt : Option String) (e : Entry)
    (rest : List Entry) (hq : qualifies e = true)
    (hp : parseStem (stemOf e.name) = none) :
    renameGo cfg rollOpt (e :: rest) = ([], some (DirError.formatError e.name)) := by
  simp [renameGo, hq, hp]

theorem renameGo_cons_mismatch (cfg : Config) (e : Entry) (rest : List Entry)
    (p : ParsedName) (r : String) (hq : qualifies e = true)
    (hp : parseStem (stemOf e.name) = some p) (hne : r ≠ p.roll_number) :
    renameGo cfg (some r) (e :: rest) = ([], some (DirError.batchConsistencyError e.name)) := by
  simp [renameGo, hq, hp, hne]

theorem renameGo_cons_missing (cfg : Config) (rollOpt : Option String) (e : Entry)
    (rest : List Entry) (p : ParsedName) (hq : qualifies e = true)
    (hp : parseStem (stemOf e.name) = some p) (hfid : frameIdent cfg p = none)
    (hcond : rollOpt = none ∨ rollOpt = some p.roll_number) :
    renameGo cfg rollOpt (e :: rest) = ([], some (DirError.missingFrameNameError e.name)) := by
  rcases hcond with h | h <;> subst h <;> simp [renameGo, hq, hp, hfid]

theorem renameGo_cons_step (cfg : Config) (rollOpt : Option String) (e : Entry)
    (rest : List Entry) (p : ParsedName) (s : String) (hq : qualifies e = true)
    (hp : parseStem (stemOf e.name) = some p) (hs : frameIdent cfg p = some s)
    (hcond : rollOpt = none ∨ rollOpt = some p.roll_number) :
    renameGo cfg rollOpt (e :: rest) =
      ((e.name, canonicalName cfg p.roll_number s (suffixOf e.name)) ::
          (renameGo cfg (some p.roll_number) rest).1,
        (renameGo cfg (some p.roll_number) rest).2) := by
  rcases hcond with h | h <;> subst h <;> simp [renameGo, hq, hp, hs]

theorem renameGo_mixed (cfg : Config) :
    ∀ (entries : List Entry) (r : String),
      allQualParseB entries = true → framesOkB cfg entries = true →
      (∃ r' ∈ qualRolls entries, r' ≠ r) →
      ∃ q, (renameGo cfg (some r) entries).2 = some (DirError.batchConsistencyError q) := by
  intro entries
  induction entries with
  | nil =>
    intro r _ _ hbad
    obtain ⟨r', hmem, -⟩ := hbad
    rw [qualRolls] at hmem
    simp at hmem
  | cons e rest ih =>
    intro r hparse hframes hbad
    rw [allQualParseB, List.all_cons, Bool.and_eq_true] at hparse
    obtain ⟨hhead, htail⟩ := hparse
    by_cases hq : qualifies e = true
    · have hsome : (parseStem (stemOf e.name)).isSome = true := by
        rw [hq] at hhead
        simpa using hhead
      obtain ⟨p, hp⟩ := Option.isSome_iff_exists.mp hsome
      by_cases hr : p.roll_number = r
      · subst hr
        obtain ⟨s, hs⟩ := frameIdent_some_of_framesOk cfg e rest hframes hq p hp
        obtain ⟨r', hmem, hne⟩ := hbad
        rw [qualRolls_cons_pos e rest p hq hp] at hmem
        have hmem' : r' ∈ qualRolls rest := by
          rcases List.mem_cons.mp hmem with h1 | h1
          · exact absurd h1 hne
          · exact h1
        obtain ⟨q, hq2⟩ := ih p.roll_number htail (framesOkB_tail cfg e rest hframes)
          ⟨r', hmem', hne⟩
        refine ⟨q, ?_⟩
        rw [renameGo_cons_step cfg (some p.roll_number) e rest p s hq hp hs (Or.inr rfl)]
        exact hq2
      · refine ⟨e.name, ?_⟩
        rw [renameGo_cons_mismatch cfg e rest p r hq hp (fun h => hr h.symm)]
    · obtain ⟨r', hmem, hne⟩ := hbad
      rw [qualRolls_cons_neg e rest hq] at hmem
      obtain ⟨q, hq2⟩ := ih r htail (framesOkB_tail cfg e rest hframes) ⟨r', hmem, hne⟩
      refine ⟨q, ?_⟩
      rw [renameGo_cons_skip cfg (some r) e rest hq]
      exact hq2

theorem renameGo_mixed_start (cfg : Config) :
    ∀ (entries : List Entry) (r : String) (rs : List String),
      allQualParseB entries = true → framesOkB cfg entries = true →
      qualRolls entries = r :: rs → (∃ r' ∈ rs, r' ≠ r) →
      ∃ q, (renameGo cfg none entries).2 = some (DirError.batchConsistencyError q) := by
  intro entries
  induction entries with
  | nil =>
    intro r rs _ _ hrolls
    rw [qualRolls] at hrolls
    simp at hrolls
  | cons e rest ih =>
    intro r rs hparse hframes hrolls hbad
    rw [allQualParseB, List.all_cons, Bool.and_eq_true] at hparse
    obtain ⟨hhead, htail⟩ := hparse
    by_cases hq : qualifies e = true
    · have hsome : (parseStem (stemOf e.name)).isSome = true := by
        rw [hq] at hhead
        simpa using hhead
      obtain ⟨p, hp⟩ := Option.isSome_iff_exists.mp hsome
      rw [qualRolls_cons_pos e rest p hq hp] at hrolls
      obtain ⟨hr, hrs⟩ : p.roll_number = r ∧ qualRolls rest = rs := by
        constructor <;> [exact (List.cons.injEq _ _ _ _ ▸ hrolls).1;
          exact (List.cons.injEq _ _ _ _ ▸ hrolls).2]
      obtain ⟨s, hs⟩ := frameIdent_some_of_framesOk cfg e rest hframes hq p hp
      obtain ⟨r', hmem, hne⟩ := hbad
      obtain ⟨q, hq2⟩ := renameGo_mixed cfg rest p.roll_number htail
        (framesOkB_tail cfg e rest hframes)
        ⟨r', by rw [hrs]; exact hmem, by rw [hr]; exact hne⟩
      refine ⟨q, ?_⟩
      rw [renameGo_cons_step cfg none e rest p s hq hp hs (Or.inl rfl)]
      exact hq2
    · rw [qualRolls_cons_neg e rest hq] at hrolls
      obtain ⟨q, hq2⟩ := ih r rs htail (framesOkB_tail cfg e rest hframes) hrolls hbad
      refine ⟨q, ?_⟩
      rw [renameGo_cons_skip cfg none e rest hq]
      exact hq2

theorem rollsAllEq_of_forall (rs : List String) (v : String)
    (h : ∀ x ∈ rs, x = v) : rollsAllEq rs = true := by
  cases rs with
  | nil => rfl
  | cons r t =>
    rw [rollsAllEq, List.all_eq_true]
    intro x hx
    rw [h x (List.mem_cons_of_mem r hx), h r (List.mem_cons_self r t)]
    exact beq_self_eq_true v

theorem forall_of_rollsAllEq (r : String) (rs : List String)
    (h : rollsAllEq (r :: rs) = true) : ∀ x ∈ rs, x = r := by
  rw [rollsAllEq, List.all_eq_true] at h
  intro x hx
  exact eq_of_beq (h x hx)

theorem renameGo_missing (cfg : Config) (huse : cfg.use_frame_names = true) :
    ∀ (entries : List Entry) (rollOpt : Option String),
      allQualParseB entries = true →
      rollsConsistentB entries = true →
      (∀ r, rollOpt = some r → ∀ r' ∈ qualRolls entries, r' = r) →
      (∃ e ∈ entries, qualifies e = true ∧
        ∃ p, parseStem (stemOf e.name) = some p ∧ frameOkB p = false) →
      ∃ q, (renameGo cfg rollOpt entries).2 = some (DirError.missingFrameNameError q) := by
  intro entries
  induction entries with
  | nil =>
    intro rollOpt _ _ _ hbad
    obtain ⟨e, he, -⟩ := hbad
    exact absurd he (List.not_mem_nil e)
  | cons e rest ih =>
    intro rollOpt hparse hcons hstate hbad
    rw [allQualParseB, List.all_cons, Bool.and_eq_true] at hparse
    obtain ⟨hhead, htail⟩ := hparse
    by_cases hq : qualifies e = true
    · have hsome : (parseStem (stemOf e.name)).isSome = true := by
        rw [hq] at hhead
        simpa using hhead
      obtain ⟨p, hp⟩ := Option.isSome_iff_exists.mp hsome
      have hconsrolls := hcons
      rw [rollsConsistentB, qualRolls_cons_pos e rest p hq hp] at hconsrolls
      have htailall : ∀ x ∈ qualRolls rest, x = p.roll_number :=
        forall_of_rollsAllEq p.roll_number (qualRolls rest) hconsrolls
      have htailcons : rollsConsistentB rest = true := by
        rw [rollsConsistentB]
        exact rollsAllEq_of_forall (qualRolls rest) p.roll_number htailall
      have hopt : rollOpt = none ∨ rollOpt = some p.roll_number := by
        cases hro : rollOpt with
        | none => exact Or.inl rfl
        | some r =>
          refine Or.inr ?_
          have := hstate r hro p.roll_number
            (by rw [qualRolls_cons_pos e rest p hq hp]; exact List.mem_cons_self _ _)
          rw [this]
      by_cases hfok : frameOkB p = true
      · obtain ⟨s, hs⟩ := frameIdent_of_frameOk cfg p huse hfok
        have hbadrest : ∃ e' ∈ rest, qualifies e' = true ∧
            ∃ p', parseStem (stemOf e'.name) = some p' ∧ frameOkB p' = false := by
          obtain ⟨e', he', hq', p', hp', hfok'⟩ := hbad
          rcases List.mem_cons.mp he' with h1 | h1
          · subst h1
            rw [hp, Option.some.injEq] at hp'
            rw [← hp'] at hfok'
            exact absurd hfok (by rw [hfok']; simp)
          · exact ⟨e', h1, hq', p', hp', hfok'⟩
        obtain ⟨q, hq2⟩ := ih (some p.roll_number) htail htailcons
          (by
            intro r hr x hx
            rw [Option.some.injEq] at hr
            rw [← hr]
            exact htailall x hx)
          hbadrest
        refine ⟨q, ?_⟩
        rw [renameGo_cons_step cfg rollOpt e rest p s hq hp hs hopt]
        exact hq2
      · refine ⟨e.name, ?_⟩
        have hfid : frameIdent cfg p = none :=
          frameIdent_none_of_bad cfg p huse (by simpa using hfok)
        rw [renameGo_cons_missing cfg rollOpt e rest p hq hp hfid hopt]
    · have hbadrest : ∃ e' ∈ rest, qualifies e' = true ∧
          ∃ p', parseStem (stemOf e'.name) = some p' ∧ frameOkB p' = false := by
        obtain ⟨e', he', hq', p', hp', hfok'⟩ := hbad
        rcases List.mem_cons.mp he' with h1 | h1
        · subst h1; exact absurd hq' hq
        · exact ⟨e', h1, hq', p', hp', hfok'⟩
      have hconsrest : rollsConsistentB rest = true := by
        rw [rollsConsistentB, qualRolls_cons_neg e rest hq] at hcons
        exact hcons
      have hstaterest : ∀ r, rollOpt = some r → ∀ r' ∈ qualRolls rest, r' = r := by
        intro r hr x hx
        exact hstate r hr x (by rw [qualRolls_cons_neg e rest hq]; exact hx)
      obtain ⟨q, hq2⟩ := ih rollOpt htail hconsrest hstaterest hbadrest
      refine ⟨q, ?_⟩
      rw [renameGo_cons_skip cfg rollOpt e rest hq]
      exact hq2

theorem parseStem_of_stemStartsR (e : Entry) (h : stemStartsR e = true) :
    parseStem (stemOf e.name) = none := by
  rw [stemStartsR] at h
  rw [parseStem]
  cases hcs : (stemOf e.name).data with
  | nil => rw [hcs] at h; simp at h
  | cons c t =>
    rw [hcs] at h
    have hc : c = 'R' := by simpa using h
    subst hc
    have hdig : isDigitC 'R' = false := by decide
    simp [hcs, List.take_succ_cons, List.all_cons, hdig]

theorem renameGo_stemR (cfg : Config) :
    ∀ (entries : List Entry) (rollOpt : Option String),
      (entries.all fun e => !qualifies e || stemStartsR e) = true →
      (renameGo cfg rollOpt entries).1 = [] ∧
        (entries.filter qualifies ≠ [] →
          ∃ q, (renameGo cfg rollOpt entries).2 = some (DirError.formatError q)) := by
  intro entries
  induction entries with
  | nil => exact fun rollOpt _ => ⟨rfl, fun h => absurd rfl h⟩
  | cons e rest ih =>
    intro rollOpt hall
    rw [List.all_cons, Bool.and_eq_true] at hall
    obtain ⟨hhead, htail⟩ := hall
    by_cases hq : qualifies e = true
    · have hR : stemStartsR e = true := by
        rw [hq] at hhead
        simpa using hhead
      have hp := parseStem_of_stemStartsR e hR
      constructor
      · simp [renameGo, hq, hp]
      · intro _
        exact ⟨e.name, by simp [renameGo, hq, hp]⟩
    · obtain ⟨h1, h2⟩ := ih rollOpt htail
      constructor
      · simp only [renameGo, hq, if_false]
        exact h1
      · intro hne
        rw [List.filter_cons_of_neg (by simpa using hq)] at hne
        obtain ⟨q, hq2⟩ := h2 hne
        refine ⟨q, ?_⟩
        rw [renameGo_cons_skip cfg rollOpt e rest hq]
        exact hq2

theorem mem_enumFrom_le {α : Type} :
    ∀ (l : List α) (k : Nat) (q : Nat × α), q ∈ List.enumFrom k l → k ≤ q.1 := by
  intro l
  induction l with
  | nil => intro k q h; simp [List.enumFrom] at h
  | cons a t ih =>
    intro k q h
    simp only [List.enumFrom] at h
    rcases List.mem_cons.mp h with h1 | h1
    · subst h1; exact Nat.le_refl k
    · exact Nat.le_of_succ_le (ih (k + 1) q h1)

theorem pairwise_fst_lt_enumFrom {α : Type} :
    ∀ (l : List α) (k : Nat),
      List.Pairwise (fun p q => p.1 < q.1) (List.enumFrom k l) := by
  intro l
  induction l with
  | nil => intro k; simp [List.enumFrom]
  | cons a t ih =>
    intro k
    simp only [List.enumFrom]
    refine List.Pairwise.cons ?_ (ih (k + 1))
    intro q hq
    have := mem_enumFrom_le t (k + 1) q hq
    omega

/-! ### The claims -/

/-- C1: in a directory whose qualifying files all parse, `fix_timestamps`
raises nothing, writes one tag set per qualifying file in listing order,
gives every file both datetime fields equal to the first qualifying file's
modification time formatted as `YYYY:MM:DD HH:MM:SS`, gives the `i`-th
(0-based) qualifying file both subsecond fields `i` zero-padded to width 3,
and the resulting (datetime, subsecond-value) keys are strictly increasing,
so sorting by them reproduces the listing order. -/
theorem claim_C1 (writer : Writer) (entries : List Entry) (e0 : Entry) (qrest : List Entry)
    (hfilter : entries.filter qualifies = e0 :: qrest)
    (hparse : allQualParseB entries = true) :
    (fix_timestamps writer entries).2 = none ∧
    (fix_timestamps writer entries).1 =
      (List.enumFrom 0 (e0 :: qrest)).map (fun pe =>
        (mkTags pe.2.name e0.mtime (pe.1 + 1), classifyWrite (writer pe.2.name))) ∧
    List.Pairwise (fun a b => a.1 = b.1 ∧ a.2 < b.2)
      ((fix_timestamps writer entries).1.map
        (fun o => (o.1.dateTimeOriginal, fromDecS o.1.subSecTimeOriginal))) := by
  have hfx := fix_timestamps_enum writer entries e0 qrest hfilter hparse
  have hfun : ((fun o : TagWrite × WriteResult =>
        (o.1.dateTimeOriginal, fromDecS o.1.subSecTimeOriginal)) ∘
      (fun pe : Nat × Entry =>
        (mkTags pe.2.name e0.mtime (pe.1 + 1), classifyWrite (writer pe.2.name)))) =
      fun pe : Nat × Entry => (strftimeExif e0.mtime, pe.1) := by
    funext pe
    simp only [Function.comp, mkTags]
    rw [Nat.add_sub_cancel, fromDecS_padZeros]
  have hpair : List.Pairwise (fun a b => a.1 = b.1 ∧ a.2 < b.2)
      (((List.enumFrom 0 (e0 :: qrest)).map (fun pe =>
          (mkTags pe.2.name e0.mtime (pe.1 + 1), classifyWrite (writer pe.2.name)))).map
        (fun o => (o.1.dateTimeOriginal, fromDecS o.1.subSecTimeOriginal))) := by
    rw [List.map_map, hfun, List.pairwise_map]
    exact (pairwise_fst_lt_enumFrom (e0 :: qrest) 0).imp (fun hab => ⟨rfl, hab⟩)
  refine ⟨by rw [hfx], by rw [hfx], ?_⟩
  rw [hfx]
  exact hpair

/-- C1 witness: a concrete three-entry listing (two qualifying files and a
skipped `Info_HD.txt`) instantiating `claim_C1`. -/
theorem claim_C1_witness :
    (fix_timestamps okWriter [⟨"000074660001_00.jpg", true, sampleTime⟩,
      ⟨"Info_HD.txt", true, sampleTime2⟩, ⟨"000074660002_0.jpg", true, sampleTime2⟩]).2 = none ∧
    (fix_timestamps okWriter [⟨"000074660001_00.jpg", true, sampleTime⟩,
      ⟨"Info_HD.txt", true, sampleTime2⟩, ⟨"000074660002_0.jpg", true, sampleTime2⟩]).1 =
      (List.enumFrom 0 [(⟨"000074660001_00.jpg", true, sampleTime⟩ : Entry),
        ⟨"000074660002_0.jpg", true, sampleTime2⟩]).map (fun pe =>
          (mkTags pe.2.name sampleTime (pe.1 + 1), classifyWrite (okWriter pe.2.name))) ∧
    List.Pairwise (fun a b => a.1 = b.1 ∧ a.2 < b.2)
      ((fix_timestamps okWriter [⟨"000074660001_00.jpg", true, sampleTime⟩,
        ⟨"Info_HD.txt", true, sampleTime2⟩, ⟨"000074660002_0.jpg", true, sampleTime2⟩]).1.map
          (fun o => (o.1.dateTimeOriginal, fromDecS o.1.subSecTimeOriginal))) :=
  claim_C1 okWriter
    [⟨"000074660001_00.jpg", true, sampleTime⟩, ⟨"Info_HD.txt", true, sampleTime2⟩,
      ⟨"000074660002_0.jpg", true, sampleTime2⟩]
    ⟨"000074660001_00.jpg", true, sampleTime⟩ [⟨"000074660002_0.jpg", true, sampleTime2⟩]
    (by decide) (by decide)

/-- C2 counterexample: with `roll_padding = 4` in frame-numbering mode the
code maps `000074660001_00.jpg` to `R7466F01.jpg`, not to the claimed
`R0007466F01.jpg`: `int(roll_number)` drops the leading zeros and the value
7466 already fills the configured width 4. -/
theorem claim_C2_counterexample :
    (rename_images ⟨4, false⟩ [⟨"000074660001_00.jpg", true, sampleTime⟩]).1 =
      [("000074660001_00.jpg", "R7466F01.jpg")] ∧
    "R7466F01.jpg" ≠ "R0007466F01.jpg" := by
  decide

/-- C2 as amended: with `roll_padding = 4` the two spec examples map to
`R7466F01.jpg` and `R7466FE.jpg`; the outputs the spec printed are the ones
produced by `roll_padding = 7`, since the roll field is the integer value of
the roll string re-padded to the configured width. -/
theorem claim_C2 :
    (rename_images ⟨4, false⟩ [⟨"000074660001_00.jpg", true, sampleTime⟩]).1 =
      [("000074660001_00.jpg", "R7466F01.jpg")] ∧
    (rename_images ⟨4, true⟩ [⟨"000074660002_E.jpg", true, sampleTime⟩]).1 =
      [("000074660002_E.jpg", "R7466FE.jpg")] ∧
    (rename_images ⟨7, false⟩ [⟨"000074660001_00.jpg", true, sampleTime⟩]).1 =
      [("000074660001_00.jpg", "R0007466F01.jpg")] ∧
    (rename_images ⟨7, true⟩ [⟨"000074660002_E.jpg", true, sampleTime⟩]).1 =
      [("000074660002_E.jpg", "R0007466FE.jpg")] := by
  decide

/-- C3 counterexample: re-running the Normalizer on its own output does not
succeed: the canonical name `R7466F01.jpg` starts with `R`, fails the parse
pattern, and raises the format `ValueError`. -/
theorem claim_C3_counterexample :
    (rename_images ⟨4, false⟩ [⟨"R7466F01.jpg", true, sampleTime⟩]).2 =
      some (DirError.formatError "R7466F01.jpg") := by
  decide

/-- C3 as amended: on a directory whose qualifying files all bear canonical
names (stems starting with `R`, as every canonical name does), re-running
the Normalizer commits no rename — every filename is left unchanged — but
it does not succeed: it raises a format `ValueError` at the first
qualifying file. -/
theorem claim_C3 (cfg : Config) (entries : List Entry)
    (hcanon : (entries.all fun e => !qualifies e || stemStartsR e) = true)
    (hsome : entries.filter qualifies ≠ []) :
    (rename_images cfg entries).1 = [] ∧
    ∃ q, (rename_images cfg entries).2 = some (DirError.formatError q) := by
  obtain ⟨h1, h2⟩ := renameGo_stemR cfg entries none hcanon
  exact ⟨h1, h2 hsome⟩

/-- C3 witness: a directory holding two canonical names instantiating
`claim_C3`. -/
theorem claim_C3_witness :
    (rename_images ⟨4, false⟩ [⟨"R7466F01.jpg", true, sampleTime⟩,
      ⟨"R7466F02.jpg", true, sampleTime⟩]).1 = [] ∧
    ∃ q, (rename_images ⟨4, false⟩ [⟨"R7466F01.jpg", true, sampleTime⟩,
      ⟨"R7466F02.jpg", true, sampleTime⟩]).2 = some (DirError.formatError q) :=
  claim_C3 ⟨4, false⟩
    [⟨"R7466F01.jpg", true, sampleTime⟩, ⟨"R7466F02.jpg", true, sampleTime⟩]
    (by decide) (by decide)

/-- C4: `find_all_image_dirs` evaluated where the code and the claim
diverge.  A regular file named `12345678` under the root is returned as an
image directory (the glob never checks the entry kind), and a root
directory whose name merely starts with eight digits (`123456789`) is
returned as well (`re.match` is a prefix match), although its name does not
match `^[0-9]{8}$`. -/
theorem claim_C4 :
    find_all_image_dirs (FSNode.dir "scans" [FSNode.file "12345678"]) = [["12345678"]] ∧
    (nodeAt (FSNode.dir "scans" [FSNode.file "12345678"]) ["12345678"]).map FSNode.isDir =
      some false ∧
    find_all_image_dirs (FSNode.dir "123456789" [FSNode.dir "img" []]) = [[]] ∧
    isEightDigits "123456789" = false := by
  refine ⟨?_, by decide, ?_, by decide⟩
  · rw [find_all_image_dirs]
    norm_num [globEights, sortPaths, insertSorted, FSNode.isDir, FSNode.nameOf]
    decide
  · rw [find_all_image_dirs]
    norm_num [globEights, sortPaths, insertSorted, FSNode.isDir, FSNode.nameOf]
    decide

/-- C5: a directory holding a qualifying file whose stem fails the pattern
is aborted with the format `ValueError` before any rename is committed
(`fix_timestamps` runs first and raises on the same file), and the run
still processes every directory: each directory's result is independent of
the others. -/
theorem claim_C5 (cfg : Config) (writer : Writer) (dirs : List (List Entry))
    (entries : List Entry) (_hmem : entries ∈ dirs)
    (hbad : ∃ e ∈ entries, qualifies e = true ∧ parseStem (stemOf e.name) = none) :
    (∃ q, (processDir cfg writer entries).error = some (DirError.formatError q)) ∧
    (processDir cfg writer entries).renames = [] ∧
    clean cfg writer dirs = dirs.map (processDir cfg writer) ∧
    (clean cfg writer dirs).length = dirs.length := by
  obtain ⟨q, hq⟩ := fixGo_error_of_bad writer entries none 0 hbad
  have hfx : (fix_timestamps writer entries).2 = some (DirError.formatError q) := hq
  exact ⟨⟨q, by simp [processDir, hfx]⟩, by simp [processDir, hfx], rfl, by simp [clean]⟩

/-- C5 witness: a malformed stem `abc123` in the first of two directories
instantiating `claim_C5`; the second directory still appears in the run's
results. -/
theorem claim_C5_witness :
    (∃ q, (processDir ⟨4, false⟩ okWriter [⟨"abc123.jpg", true, sampleTime⟩]).error =
      some (DirError.formatError q)) ∧
    (processDir ⟨4, false⟩ okWriter [⟨"abc123.jpg", true, sampleTime⟩]).renames = [] ∧
    clean ⟨4, false⟩ okWriter [[⟨"abc123.jpg", true, sampleTime⟩],
      [⟨"000074660001_00.jpg", true, sampleTime⟩]] =
      [[⟨"abc123.jpg", true, sampleTime⟩],
        [(⟨"000074660001_00.jpg", true, sampleTime⟩ : Entry)]].map
          (processDir ⟨4, false⟩ okWriter) ∧
    (clean ⟨4, false⟩ okWriter [[⟨"abc123.jpg", true, sampleTime⟩],
      [⟨"000074660001_00.jpg", true, sampleTime⟩]]).length = 2 :=
  claim_C5 ⟨4, false⟩ okWriter
    [[⟨"abc123.jpg", true, sampleTime⟩], [⟨"000074660001_00.jpg", true, sampleTime⟩]]
    [⟨"abc123.jpg", true, sampleTime⟩]
    (by decide) (by decide)

/-- C6: when the qualifying files parse but a later file's roll number
differs from the roll established by the first qualifying file, the
directory's processing ends with the batch-consistency `ValueError`, with
the same per-directory scope: the run still maps over every directory. -/
theorem claim_C6 (cfg : Config) (writer : Writer) (dirs : List (List Entry))
    (entries : List Entry) (_hmem : entries ∈ dirs)
    (hparse : allQualParseB entries = true)
    (hframes : framesOkB cfg entries = true)
    (r : String) (rs : List String)
    (hrolls : qualRolls entries = r :: rs)
    (hmix : ∃ r' ∈ rs, r' ≠ r) :
    (∃ q, (processDir cfg writer entries).error =
      some (DirError.batchConsistencyError q)) ∧
    clean cfg writer dirs = dirs.map (processDir cfg writer) ∧
    (clean cfg writer dirs).length = dirs.length := by
  obtain ⟨q, hq⟩ := renameGo_mixed_start cfg entries r rs hparse hframes hrolls hmix
  have hfx : (fix_timestamps writer entries).2 = none := by
    rw [fix_timestamps, fixGo_eq_qual writer entries none 0 hparse]
  refine ⟨⟨q, ?_⟩, rfl, by simp [clean]⟩
  simp only [processDir, hfx, rename_images]
  exact hq

/-- C6 witness: the spec's own pair `000074660001_00.jpg` and
`999974660002_0.jpg` in one directory, instantiating `claim_C6`. -/
theorem claim_C6_witness :
    (∃ q, (processDir ⟨4, false⟩ okWriter [⟨"000074660001_00.jpg", true, sampleTime⟩,
      ⟨"999974660002_0.jpg", true, sampleTime⟩]).error =
        some (DirError.batchConsistencyError q)) ∧
    clean ⟨4, false⟩ okWriter [[⟨"000074660001_00.jpg", true, sampleTime⟩,
      ⟨"999974660002_0.jpg", true, sampleTime⟩]] =
      [[(⟨"000074660001_00.jpg", true, sampleTime⟩ : Entry),
        ⟨"999974660002_0.jpg", true, sampleTime⟩]].map (processDir ⟨4, false⟩ okWriter) ∧
    (clean ⟨4, false⟩ okWriter [[⟨"000074660001_00.jpg", true, sampleTime⟩,
      ⟨"999974660002_0.jpg", true, sampleTime⟩]]).length = 1 :=
  claim_C6 ⟨4, false⟩ okWriter
    [[⟨"000074660001_00.jpg", true, sampleTime⟩, ⟨"999974660002_0.jpg", true, sampleTime⟩]]
    [⟨"000074660001_00.jpg", true, sampleTime⟩, ⟨"999974660002_0.jpg", true, sampleTime⟩]
    (by decide) (by decide) (by decide)
    "00007466" ["99997466"] (by decide) (by decide)

/-- C7: a writer failure is file-scoped.  For any writer behaviour at all,
a directory whose qualifying files parse is never aborted by the writer:
every qualifying file is attempted, in order, and each file's recorded
outcome is exactly the classification of the writer's answer for that file
(caught execution error or unexpected acknowledgment), independent of the
other files. -/
theorem claim_C7 (writer : Writer) (entries : List Entry)
    (hparse : allQualParseB entries = true) :
    (fix_timestamps writer entries).2 = none ∧
    (fix_timestamps writer entries).1.map (fun o => o.1.path) =
      (entries.filter qualifies).map (fun e => e.name) ∧
    (fix_timestamps writer entries).1.map (fun o => o.2) =
      (entries.filter qualifies).map (fun e => classifyWrite (writer e.name)) := by
  have h := fixGo_eq_qual writer entries none 0 hparse
  rw [fix_timestamps, h]
  exact ⟨rfl, fixQualOuts_map_path writer _ none 0, fixQualOuts_map_res writer _ none 0⟩

/-- C7 witness: a writer that raises on the first file and returns a wrong
acknowledgment on the second still lets the third file through,
instantiating `claim_C7`. -/
theorem claim_C7_witness :
    (fix_timestamps mixedWriter [⟨"000074660001_00.jpg", true, sampleTime⟩,
      ⟨"000074660002_0.jpg", true, sampleTime⟩,
      ⟨"000074660003_1.jpg", true, sampleTime⟩]).2 = none ∧
    (fix_timestamps mixedWriter [⟨"000074660001_00.jpg", true, sampleTime⟩,
      ⟨"000074660002_0.jpg", true, sampleTime⟩,
      ⟨"000074660003_1.jpg", true, sampleTime⟩]).1.map (fun o => o.1.path) =
      ([⟨"000074660001_00.jpg", true, sampleTime⟩, ⟨"000074660002_0.jpg", true, sampleTime⟩,
        ⟨"000074660003_1.jpg", true, sampleTime⟩].filter qualifies).map (fun e => e.name) ∧
    (fix_timestamps mixedWriter [⟨"000074660001_00.jpg", true, sampleTime⟩,
      ⟨"000074660002_0.jpg", true, sampleTime⟩,
      ⟨"000074660003_1.jpg", true, sampleTime⟩]).1.map (fun o => o.2) =
      ([⟨"000074660001_00.jpg", true, sampleTime⟩, ⟨"000074660002_0.jpg", true, sampleTime⟩,
        ⟨"000074660003_1.jpg", true, sampleTime⟩].filter qualifies).map
          (fun e => classifyWrite (mixedWriter e.name)) :=
  claim_C7 mixedWriter
    [⟨"000074660001_00.jpg", true, sampleTime⟩, ⟨"000074660002_0.jpg", true, sampleTime⟩,
      ⟨"000074660003_1.jpg", true, sampleTime⟩]
    (by decide)

/-- C8: in frame-name mode, a qualifying file whose `frame_name` group is
absent or empty makes the directory's processing end with the
missing-frame-name `ValueError` (given the files parse and agree on the
roll, so no earlier error fires), with the same per-directory scope. -/
theorem claim_C8 (cfg : Config) (writer : Writer) (dirs : List (List Entry))
    (entries : List Entry) (_hmem : entries ∈ dirs)
    (huse : cfg.use_frame_names = true)
    (hparse : allQualParseB entries = true)
    (hcons : rollsConsistentB entries = true)
    (hbad : ∃ e ∈ entries, qualifies e = true ∧
      ∃ p, parseStem (stemOf e.name) = some p ∧ frameOkB p = false) :
    (∃ q, (processDir cfg writer entries).error =
      some (DirError.missingFrameNameError q)) ∧
    clean cfg writer dirs = dirs.map (processDir cfg writer) ∧
    (clean cfg writer dirs).length = dirs.length := by
  obtain ⟨q, hq⟩ := renameGo_missing cfg huse entries none hparse hcons
    (by intro r hr; exact absurd hr (by simp)) hbad
  have hfx : (fix_timestamps writer entries).2 = none := by
    rw [fix_timestamps, fixGo_eq_qual writer entries none 0 hparse]
  refine ⟨⟨q, ?_⟩, rfl, by simp [clean]⟩
  simp only [processDir, hfx, rename_images]
  exact hq

/-- C8 witness: in frame-name mode, `000074660002.jpg` has no underscore
part, so its `frame_name` group is absent, instantiating `claim_C8`. -/
theorem claim_C8_witness :
    (∃ q, (processDir ⟨4, true⟩ okWriter [⟨"000074660001_00.jpg", true, sampleTime⟩,
      ⟨"000074660002.jpg", true, sampleTime⟩]).error =
        some (DirError.missingFrameNameError q)) ∧
    clean ⟨4, true⟩ okWriter [[⟨"000074660001_00.jpg", true, sampleTime⟩,
      ⟨"000074660002.jpg", true, sampleTime⟩]] =
      [[(⟨"000074660001_00.jpg", true, sampleTime⟩ : Entry),
        ⟨"000074660002.jpg", true, sampleTime⟩]].map (processDir ⟨4, true⟩ okWriter) ∧
    (clean ⟨4, true⟩ okWriter [[⟨"000074660001_00.jpg", true, sampleTime⟩,
      ⟨"000074660002.jpg", true, sampleTime⟩]]).length = 1 :=
  claim_C8 ⟨4, true⟩ okWriter
    [[⟨"000074660001_00.jpg", true, sampleTime⟩, ⟨"000074660002.jpg", true, sampleTime⟩]]
    [⟨"000074660001_00.jpg", true, sampleTime⟩, ⟨"000074660002.jpg", true, sampleTime⟩]
    (by decide) (by decide) (by decide) (by decide) (by decide)

/-- C9: the shared skip filter.  A directory entry that is not a regular
file, is hidden, or lacks a `.jpg`/`.tif` extension is invisible to both
components: one directory pass equals the pass over the pre-filtered
listing (so a skipped entry is never counted, never sets the base time,
never establishes the roll baseline, and raises nothing), every committed
rename source is a qualifying entry's name, and every tagged path is a
qualifying entry's name. -/
theorem claim_C9 (cfg : Config) (writer : Writer) (entries : List Entry) :
    processDir cfg writer entries = processDir cfg writer (entries.filter qualifies) ∧
    (∃ j, (processDir cfg writer entries).renames.map Prod.fst =
      ((entries.filter qualifies).map (fun e => e.name)).take j) ∧
    (∃ j, (processDir cfg writer entries).tagOutcomes.map (fun o => o.1.path) =
      ((entries.filter qualifies).map (fun e => e.name)).take j) := by
  refine ⟨?_, ?_, ?_⟩
  · simp only [processDir, fix_timestamps, rename_images]
    rw [fixGo_filter writer entries none 0, renameGo_filter cfg entries none]
  · cases hf : (fix_timestamps writer entries).2 with
    | some err => exact ⟨0, by simp [processDir, hf]⟩
    | none =>
      obtain ⟨j, hj⟩ := renameGo_src_take cfg entries none
      exact ⟨j, by simp only [processDir, hf]; exact hj⟩
  · cases hf : (fix_timestamps writer entries).2 with
    | some err =>
      obtain ⟨j, hj⟩ := fixGo_path_take writer entries none 0
      exact ⟨j, by simp only [processDir, hf]; exact hj⟩
    | none =>
      obtain ⟨j, hj⟩ := fixGo_path_take writer entries none 0
      exact ⟨j, by simp only [processDir, hf]; exact hj⟩

/-- C10: numeric fields are never truncated but leading zeros are not
preserved.  The roll field decodes back to `int(roll_number)` and its width
is the configured padding or the numeral's own length, whichever is larger;
in sequential mode the frame identifier is `int(frame_number)` padded to
width 2, which spreads to 3 or 4 digits whenever the 4-digit frame string
holds a value of 100 or more. -/
theorem claim_C10 (cfg : Config) (p : ParsedName)
    (hseq : cfg.use_frame_names = false)
    (hfd : p.frame_number.data.all isDigitC = true)
    (hfl : p.frame_number.data.length = 4) :
    fromDecS (padZeros (fromDecS p.roll_number) cfg.roll_padding) = fromDecS p.roll_number ∧
    (padZeros (fromDecS p.roll_number) cfg.roll_padding).length =
      max cfg.roll_padding (toDec (fromDecS p.roll_number)).length ∧
    frameIdent cfg p = some (padZeros (fromDecS p.frame_number) 2) ∧
    fromDecS (padZeros (fromDecS p.frame_number) 2) = fromDecS p.frame_number ∧
    (100 ≤ fromDecS p.frame_number →
      (padZeros (fromDecS p.frame_number) 2).length = 3 ∨
      (padZeros (fromDecS p.frame_number) 2).length = 4) := by
  refine ⟨fromDecS_padZeros _ _, length_padZeros _ _, frameIdent_seq cfg p hseq,
    fromDecS_padZeros _ _, ?_⟩
  intro h100
  have hlt : fromDecS p.frame_number < 10 ^ 4 := by
    have := fromDecList_lt p.frame_number.data hfd
    rw [hfl] at this
    exact this
  have hle : (toDec (fromDecS p.frame_number)).length ≤ 4 :=
    toDec_length_le _ 4 (by omega) hlt
  have hge : 3 ≤ (toDec (fromDecS p.frame_number)).length := by
    have h := toDec_length_ge (fromDecS p.frame_number) 2 (by
      calc (10 : Nat) ^ 2 = 100 := by norm_num
        _ ≤ fromDecS p.frame_number := h100)
    omega
  rw [length_padZeros]
  omega

/-- C10 witness: roll `00007466` and frame `0123` with the default padding,
instantiating `claim_C10`; the frame field spreads to three digits. -/
theorem claim_C10_witness :
    fromDecS (padZeros (fromDecS "00007466") 4) = fromDecS "00007466" ∧
    (padZeros (fromDecS "00007466") 4).length = max 4 (toDec (fromDecS "00007466")).length ∧
    frameIdent ⟨4, false⟩ ⟨"00007466", "0123", some "00"⟩ =
      some (padZeros (fromDecS "0123") 2) ∧
    fromDecS (padZeros (fromDecS "0123") 2) = fromDecS "0123" ∧
    (100 ≤ fromDecS "0123" →
      (padZeros (fromDecS "0123") 2).length = 3 ∨
      (padZeros (fromDecS "0123") 2).length = 4) :=
  claim_C10 ⟨4, false⟩ ⟨"00007466", "0123", some "00"⟩ rfl (by decide) (by decide)

end Noritsu
